import Mathlib

/-!
Shallow embedding of the prysm blob-verification code:
`src/consensus-types/blobs/blob.go` (aggregate KZG path) and the second
`blobs` package file (per-blob path and sidecar presence checks).

Modelling conventions:
* Go `[]byte` is `List Nat` (each entry a byte value; byte reads that feed
  arithmetic are normalised with `% 256`).
* `bls.Fr` (a BLS12-381 scalar field element) is `Nat`, reduced mod
  `blsModulus` by the library invariant.
* A Go function that can return an error or panic at runtime returns
  `Exec α`: `ok` is a normal return, `fail e` a returned Go error value,
  `crash` a runtime panic (nil dereference, index/slice out of range).
* `params.FieldElementsPerBlob` is not part of the sources, only its use
  sites are; it is passed everywhere as an explicit parameter `N`.
* External collaborators (SSZ marshalling, the hash function, the
  go-kzg/geth curve and polynomial primitives) are black boxes per the
  design document; they are passed in as function parameters so that all
  theorems quantify over them.
-/

namespace Prysm

/-- Error values returned by the two `blobs` packages, plus `external` for
opaque errors produced by the collaborator libraries and `nilSidecar` for
`blocks.ErrNilSidecar`. -/
inductive GoErr where
  | invalidBlobSlot
  | invalidBlobBeaconBlockRoot
  | invalidBlobsLength
  | emptyBlobsInSidecar
  | invalidAggregateProof
  | invalidValueInBlob
  | pointsScalarsLengthMismatch
  | couldNotComputeCommitment
  | missmatchKzgs
  | nilSidecar
  | external (code : Nat)
deriving DecidableEq, Repr

/-- Result of running a Go function: a normal return, a returned error, or
a runtime panic. -/
inductive Exec (α : Type) where
  | ok (a : α)
  | fail (e : GoErr)
  | crash
deriving DecidableEq, Repr

/-- The BLS12-381 scalar field modulus (`bls.ModulusStr`, decimal). -/
def blsModulus : Nat :=
  52435875175126190479447740508185965837690552500527637822603658699938581184513

/-- Big-endian byte interpretation, as `big.Int.SetBytes` does. -/
def natFromBytesBE (l : List Nat) : Nat :=
  l.foldl (fun acc b => acc * 256 + b % 256) 0

/-- Little-endian byte interpretation (the convention of `bls.FrFrom32`). -/
def natFromBytesLE : List Nat → Nat
  | [] => 0
  | b :: rest => b % 256 + 256 * natFromBytesLE rest

/-- Models `bytesutil.ToBytes32`: copy up to 32 bytes into a fresh
zero-initialised 32-byte array. -/
def toBytes32 (b : List Nat) : List Nat :=
  b.take 32 ++ List.replicate (32 - b.length) 0

/-- Models `bytesutil.ToBytes48`: copy up to 48 bytes into a fresh
zero-initialised 48-byte array. -/
def toBytes48 (b : List Nat) : List Nat :=
  b.take 48 ++ List.replicate (48 - b.length) 0

/-- Models `bls.FrFrom32`: read 32 little-endian bytes, succeeding exactly
when the value is a canonical field element (less than the modulus). -/
def frFrom32 (bytes : List Nat) : Option Nat :=
  let v := natFromBytesLE bytes
  if v < blsModulus then some v else none

/-- Models `bls.FrTo32`: the 32-byte little-endian encoding of a field
element. -/
def frTo32 (v : Nat) : List Nat :=
  (List.range 32).map fun i => v / 256 ^ i % 256

/-- Models `bls.SetFr(dst, v)`: the library parses `v` and writes the value
through the destination pointer. A `none` destination is a nil pointer, so
the write is a nil-pointer dereference, i.e. a runtime panic. -/
def setFr (dst : Option Nat) (v : Nat) : Exec Nat :=
  match dst with
  | none => .crash
  | some _ => .ok v

/-- Models `hashToBlsField` (blob.go lines 146-163). The argument
`marshaled` is the result of `x.MarshalSSZ()`; `hashF` is the external
32-byte digest `hash.Hash`. The source computes the digest, reverses it
(`bytesutil.ReverseByteOrder`), interprets it as a big integer
(`big.Int.SetBytes`, big-endian) and reduces mod the modulus — and then
executes `var f *bls.Fr; bls.SetFr(f, b.String())` on the nil pointer `f`. -/
def hashToBlsField (hashF : List Nat → List Nat)
    (marshaled : Except GoErr (List Nat)) : Exec Nat :=
  match marshaled with
  | .error e => .fail e
  | .ok m =>
    let h := hashF m
    let b := natFromBytesBE h.reverse % blsModulus
    let f : Option Nat := none
    setFr f b

/-- Inner loop of `computePowers`: `powers[i] = currentPower;
MulModFr(&currentPower, &currentPower, x)`. -/
def computePowersGo (x : Nat) : Nat → Nat → List Nat
  | 0, _ => []
  | k + 1, cur => cur :: computePowersGo x k (cur * x % blsModulus)

/-- Models `computePowers` (blob.go lines 176-184): `currentPower` starts
at `bls.ONE`. -/
def computePowers (x : Nat) (n : Nat) : List Nat :=
  computePowersGo x n 1

/-- Models `v1.Blob`: the flat byte buffer `.Data`. -/
structure V1Blob where
  data : List Nat
deriving DecidableEq, Repr

/-- Models slicing `blob[lo:hi]` after its bound check has passed. -/
def sliceGo (blob : List Nat) (lo hi : Nat) : List Nat :=
  (blob.drop lo).take (hi - lo)

/-- Inner loop of `polyLinComb` (blob.go lines 206-212):
`for j := 0; j <= N; j++ { b := blob[j*32 : j*32+31];
ok := bls.FrFrom32(&r[j], bytesutil.ToBytes32(b)); ... }`.
`cnt` is the remaining number of iterations (the `j <= N` loop runs `N+1`
times). The slice expression panics when `j*32+31` exceeds the blob length
(a fresh byte slice has capacity equal to its length); evaluating `&r[j]`
panics when `j` is not below `len(r)`; a non-canonical chunk returns the
`invalid value in blob` error. -/
def blobLoop (blob : List Nat) : Nat → Nat → List Nat → Exec (List Nat)
  | 0, _, r => .ok r
  | cnt + 1, j, r =>
    if j * 32 + 31 ≤ blob.length then
      if j < r.length then
        match frFrom32 (toBytes32 (sliceGo blob (j * 32) (j * 32 + 31))) with
        | none => .fail .invalidValueInBlob
        | some v => blobLoop blob cnt (j + 1) (r.set j v)
      else .crash
    else .crash

/-- Outer loop of `polyLinComb`: build `out[i]` from each blob in turn. -/
def polyLinCombOuter (N : Nat) : List V1Blob → Exec (List (List Nat))
  | [] => .ok []
  | blob :: rest =>
    match blobLoop blob.data (N + 1) 0 (List.replicate N 0) with
    | .crash => .crash
    | .fail e => .fail e
    | .ok r =>
      match polyLinCombOuter N rest with
      | .crash => .crash
      | .fail e => .fail e
      | .ok out => .ok (r :: out)

/-- Models `polyLinComb` (blob.go lines 201-216). `lib` is the external
`bls.PolyLinComb` collaborator that combines the decoded matrix with the
scalars. -/
def polyLinComb (lib : List (List Nat) → List Nat → Except GoErr (List Nat))
    (N : Nat) (blobs : List V1Blob) (scalars : List Nat) : Exec (List Nat) :=
  match polyLinCombOuter N blobs with
  | .crash => .crash
  | .fail e => .fail e
  | .ok out =>
    match lib out scalars with
    | .error e => .fail e
    | .ok res => .ok res

/-- Decompression loop of `g1LinComb`: first decode error aborts. -/
def decompressAll {G1 : Type} (fromC : List Nat → Except GoErr G1) :
    List (List Nat) → Except GoErr (List G1)
  | [] => .ok []
  | p :: ps =>
    match fromC p with
    | .error e => .error e
    | .ok g =>
      match decompressAll fromC ps with
      | .error e => .error e
      | .ok gs => .ok (g :: gs)

/-- Models `g1LinComb` (blob.go lines 231-244). `fromC`, `linC`, `toC` are
the external `bls.FromCompressedG1`, `bls.LinCombG1`, `bls.ToCompressedG1`
primitives. -/
def g1LinComb {G1 : Type} (fromC : List Nat → Except GoErr G1)
    (linC : List G1 → List Nat → G1) (toC : G1 → List Nat)
    (points : List (List Nat)) (scalars : List Nat) : Exec (List Nat) :=
  if points.length ≠ scalars.length then .fail .pointsScalarsLengthMismatch
  else
    match decompressAll fromC points with
    | .error e => .fail e
    | .ok g1s => .ok (toC (linC g1s scalars))

/-- Reversal of the `w` low bits of a natural number. -/
def natBitRev : Nat → Nat → Nat
  | 0, _ => 0
  | w + 1, i => i % 2 * 2 ^ w + natBitRev w (i / 2)

/-- Models `bits.Reverse64` applied to `uint64(i)`. -/
def reverse64 (x : Nat) : Nat := natBitRev 64 (x % 2 ^ 64)

/-- Bit-length recursion for `bits.Len64`, with enough fuel for a 64-bit
input. -/
def len64Aux : Nat → Nat → Nat
  | 0, _ => 0
  | fuel + 1, x => if x = 0 then 0 else len64Aux fuel (x / 2) + 1

/-- Models `bits.Len64`: the number of bits required to represent the
64-bit value `x`. -/
def len64 (x : Nat) : Nat := len64Aux 64 x

/-- The index expression of `bitReversalPermutation` (blob.go line 264):
`j := bits.Reverse64(uint64(i)) >> (65 - bits.Len64(N))`. -/
def brpIndex (N i : Nat) : Nat := reverse64 i >>> (65 - len64 N)

/-- Models `isPowerOfTwo` (blob.go lines 271-273). -/
def isPowerOfTwo (value : Nat) : Bool :=
  decide (0 < value) && decide (value &&& (value - 1) = 0)

/-- Loop of `bitReversalPermutation`: `for i := range l { out[i] = l[j] }`,
with `rem` the remaining iteration count. Reading `l[j]` panics when `j`
is out of range; the write `out[i]` panics when `i` is not below the
output length. -/
def brpGo (N : Nat) (l : List Nat) : Nat → Nat → List Nat → Exec (List Nat)
  | 0, _, out => .ok out
  | rem + 1, i, out =>
    match l.get? (brpIndex N i) with
    | none => .crash
    | some v =>
      if i < out.length then brpGo N l rem (i + 1) (out.set i v)
      else .crash

/-- Models `bitReversalPermutation` (blob.go lines 257-269): the output is
sized `make([]bls.Fr, N)` by the global constant, and the loop runs over
the input's indices. The power-of-two check also inspects the global
constant, and failing it panics. -/
def bitReversalPermutation (N : Nat) (l : List Nat) : Exec (List Nat) :=
  if isPowerOfTwo N then brpGo N l l.length 0 (List.replicate N 0)
  else .crash

/-- Loop building `xData.Polynomial` (blob.go lines 116-119): for each
`i < N`, read `aggregatedPoly[i]` (panicking if out of range) and store
its 32-byte encoding. -/
def buildPolyLoop (poly : List Nat) : Nat → Nat → Option (List (List Nat))
  | 0, _ => some []
  | cnt + 1, i =>
    match poly.get? i with
    | none => none
    | some v =>
      match buildPolyLoop poly cnt (i + 1) with
      | none => none
      | some rest => some (frTo32 v :: rest)

/-- The external collaborators used by `ValidateBlobsSidecar`, per the
design document's outbound dependencies: SSZ marshalling of the two hashed
containers, the 32-byte digest, the G1 point primitives, `bls.PolyLinComb`,
`bls.EvaluatePolyInEvaluationForm` and `kzg.VerifyKZGProof`. -/
structure Collab (G1 : Type) where
  hashF : List Nat → List Nat
  marshalBC : List V1Blob → List (List Nat) → Except GoErr (List Nat)
  marshalPC : List (List Nat) → List Nat → Except GoErr (List Nat)
  fromCompressedG1 : List Nat → Except GoErr G1
  linCombG1 : List G1 → List Nat → G1
  toCompressedG1 : G1 → List Nat
  polyLinCombLib : List (List Nat) → List Nat → Except GoErr (List Nat)
  evalPoly : List Nat → Nat → List Nat → Nat
  verifyKZG : List Nat → Nat → Nat → List Nat → Except GoErr Bool

/-- Models `eth.BlobsSidecar` as used by the aggregate path (blob.go). -/
structure AggSidecar where
  beaconBlockSlot : Nat
  beaconBlockRoot : List Nat
  blobs : List V1Blob
  aggregatedProof : List Nat
deriving DecidableEq, Repr

/-- Models `ValidateBlobsSidecar` (blob.go lines 75-137). `rootsOfUnity`
is the process-wide table read by the evaluation step. -/
def ValidateBlobsSidecar {G1 : Type} (c : Collab G1) (N : Nat)
    (rootsOfUnity : List Nat) (slot : Nat) (root : List Nat)
    (commitments : List (List Nat)) (sidecar : AggSidecar) : Exec Unit :=
  if slot ≠ sidecar.beaconBlockSlot then .fail .invalidBlobSlot
  else if root ≠ toBytes32 sidecar.beaconBlockRoot then
    .fail .invalidBlobBeaconBlockRoot
  else if commitments.length ≠ sidecar.blobs.length then
    .fail .invalidBlobsLength
  else
    match hashToBlsField c.hashF (c.marshalBC sidecar.blobs commitments) with
    | .fail e => .fail e
    | .crash => .crash
    | .ok r =>
      if sidecar.blobs.length = 0 then .fail .emptyBlobsInSidecar
      else
        let rPowers := computePowers r sidecar.blobs.length
        match g1LinComb c.fromCompressedG1 c.linCombG1 c.toCompressedG1
            commitments rPowers with
        | .fail e => .fail e
        | .crash => .crash
        | .ok aggregatedPolyCommitment =>
          match polyLinComb c.polyLinCombLib N sidecar.blobs rPowers with
          | .fail e => .fail e
          | .crash => .crash
          | .ok aggregatedPoly =>
            match buildPolyLoop aggregatedPoly N 0 with
            | none => .crash
            | some polyBytes =>
              match hashToBlsField c.hashF
                  (c.marshalPC polyBytes aggregatedPolyCommitment) with
              | .fail e => .fail e
              | .crash => .crash
              | .ok x =>
                let y := c.evalPoly aggregatedPoly x rootsOfUnity
                match c.verifyKZG (toBytes48 aggregatedPolyCommitment) x y
                    (toBytes48 sidecar.aggregatedProof) with
                | .error e => .fail e
                | .ok b => if b then .ok () else .fail .invalidAggregateProof

/-- Models one entry of the per-blob sidecar's blob list: the proto field
`.Blob`, a list of 32-byte chunks. -/
structure SidecarBlob where
  chunks : List (List Nat)
deriving DecidableEq, Repr

/-- Models `eth.BlobsSidecar` as used by the per-blob path. -/
structure PBSidecar where
  beaconBlockSlot : Nat
  beaconBlockRoot : List Nat
  blobs : List SidecarBlob
deriving DecidableEq, Repr

/-- Inner decode loop of `VerifyBlobsSidecar` (per-blob file, lines 42-47):
`var blob gethType.Blob` is a zero-initialised `[N][32]byte` array, and for
each chunk `b` the code runs `var f [32]byte; copy(f[:], b); blob[i] = f`.
The write panics (`none`) when the chunk index reaches `N`. -/
def decodeLoop : List (List Nat) → Nat → List (List Nat) →
    Option (List (List Nat))
  | [], _, blob => some blob
  | b :: rest, i, blob =>
    let f := toBytes32 b
    if i < blob.length then decodeLoop rest (i + 1) (blob.set i f)
    else none

/-- Decode one sidecar blob into the geth `Blob` value fed to
`ComputeCommitment`. -/
def decodeGethBlob (N : Nat) (chunks : List (List Nat)) :
    Option (List (List Nat)) :=
  decodeLoop chunks 0 (List.replicate N (List.replicate 32 0))

/-- The commitment the per-blob path recomputes for one sidecar blob:
decode it, then run the external `gethType.Blob.ComputeCommitment`
primitive `cc` (whose `ok = false` is `none`). -/
def recomputeCommitment (N : Nat) (cc : List (List Nat) → Option (List Nat))
    (b : SidecarBlob) : Option (List Nat) :=
  (decodeGethBlob N b.chunks).bind cc

/-- Per-index loop of `VerifyBlobsSidecar` (lines 41-55): ranging over the
expected commitments while indexing the sidecar's blobs (a missing blob
would be an index-out-of-range panic, excluded by the length gate). -/
def verifyLoop (N : Nat) (cc : List (List Nat) → Option (List Nat)) :
    List (List Nat) → List SidecarBlob → Exec Unit
  | [], _ => .ok ()
  | _ :: _, [] => .crash
  | kzg :: ks, blob :: bs =>
    match decodeGethBlob N blob.chunks with
    | none => .crash
    | some fb =>
      match cc fb with
      | none => .fail .couldNotComputeCommitment
      | some c => if c ≠ kzg then .fail .missmatchKzgs else verifyLoop N cc ks bs

/-- Models `VerifyBlobsSidecar` (per-blob file, lines 30-57). -/
def VerifyBlobsSidecar (N : Nat) (cc : List (List Nat) → Option (List Nat))
    (slot : Nat) (beaconBlockRoot : List Nat)
    (expectedKZGs : List (List Nat)) (sc : PBSidecar) : Exec Unit :=
  if slot ≠ sc.beaconBlockSlot then .fail .invalidBlobSlot
  else if beaconBlockRoot ≠ toBytes32 sc.beaconBlockRoot then
    .fail .invalidBlobBeaconBlockRoot
  else if expectedKZGs.length ≠ sc.blobs.length then .fail .invalidBlobsLength
  else verifyLoop N cc expectedKZGs sc.blobs

/-- Models `interfaces.BeaconBlock` as the sidecar presence checks use it:
a version and the `Body().BlobKzgs()` accessor result. -/
structure BeaconBlock where
  version : Nat
  blobKzgs : Except GoErr (List (List Nat))

/-- Models `interfaces.SignedBeaconBlock`: the inner block and the
`SideCar()` accessor result (with `GoErr.nilSidecar` as
`blocks.ErrNilSidecar`). -/
structure SignedBeaconBlock where
  block : BeaconBlock
  sideCar : Except GoErr PBSidecar

/-- Models `BlockContainsKZGs` (per-blob file, lines 78-87). `isPre` is the
external `blocks.IsPreEIP4844Version` predicate. -/
def BlockContainsKZGs (isPre : Nat → Bool) (b : BeaconBlock) :
    Bool × Option GoErr :=
  if isPre b.version then (false, none)
  else
    match b.blobKzgs with
    | .error e => (false, some e)
    | .ok blobKzgs => (decide (blobKzgs.length ≠ 0), none)

/-- Models `BlockContainsSidecar` (per-blob file, lines 60-76). -/
def BlockContainsSidecar (isPre : Nat → Bool) (b : SignedBeaconBlock) :
    Bool × Option GoErr :=
  match BlockContainsKZGs isPre b.block with
  | (_, some e) => (false, some e)
  | (hasKzg, none) =>
    if !hasKzg then (false, none)
    else
      match b.sideCar with
      | .error e => if e = .nilSidecar then (false, none) else (false, some e)
      | .ok _ => (true, none)

/-! ### Helper lemmas -/

theorem computePowersGo_length (x : Nat) :
    ∀ n cur, (computePowersGo x n cur).length = n := by
  intro n
  induction n with
  | zero => intro cur; rfl
  | succ k ih => intro cur; simp [computePowersGo, ih]

theorem computePowersGo_getD (x : Nat) :
    ∀ n cur k, cur < blsModulus → k < n →
      (computePowersGo x n cur).getD k 0 = cur * x ^ k % blsModulus := by
  intro n
  induction n with
  | zero => intro cur k _ hk; omega
  | succ m ih =>
    intro cur k hcur hk
    cases k with
    | zero =>
      simp [computePowersGo, pow_zero, Nat.mul_one, Nat.mod_eq_of_lt hcur]
    | succ k =>
      have hstep : (cur * x % blsModulus) * x ^ k % blsModulus =
          cur * x ^ (k + 1) % blsModulus := by
        rw [Nat.mod_mul_mod, pow_succ]
        ring_nf
      simp only [computePowersGo, List.getD_cons_succ]
      rw [ih (cur * x % blsModulus) k
        (Nat.mod_lt _ (by norm_num [blsModulus])) (by omega), hstep]

/-! ### C2: hashToBlsField -/

/-- C2: the claim says `hashToBlsField` returns the digest, interpreted as a
little-endian integer and reduced mod P, "normally rather than crashing".
On the code this is false for every input whose serialization succeeds: the
function declares `var f *bls.Fr` (a nil pointer, never allocated) and then
calls `bls.SetFr(f, b.String())`, a nil-pointer dereference, so every call
panics instead of returning the field element. -/
theorem hashToBlsField_nil_deref (hashF : List Nat → List Nat)
    (bytes : List Nat) :
    hashToBlsField hashF (Except.ok bytes) = Exec.crash := rfl

/-! ### C6: computePowers -/

/-- C6: for all `n ≥ 1` and every `x`, `computePowers x n` has length `n`,
its first element is `1` (the multiplicative identity, `bls.ONE`), and its
`k`-th element is `x^k mod P` for every `k < n`. -/
theorem computePowers_spec (x n : Nat) (h : 1 ≤ n) :
    (computePowers x n).length = n ∧
    (computePowers x n).getD 0 0 = 1 ∧
    ∀ k, k < n → (computePowers x n).getD k 0 = x ^ k % blsModulus := by
  have hone : (1 : Nat) < blsModulus := by norm_num [blsModulus]
  refine ⟨computePowersGo_length x n 1, ?_, ?_⟩
  · rw [computePowers, computePowersGo_getD x n 1 0 hone (by omega)]
    simpa using Nat.mod_eq_of_lt hone
  · intro k hk
    rw [computePowers, computePowersGo_getD x n 1 k hone hk, one_mul]

theorem computePowers_spec_witness :
    (computePowers 2 3).length = 3 ∧
    (computePowers 2 3).getD 0 0 = 1 ∧
    ∀ k, k < 3 → (computePowers 2 3).getD k 0 = 2 ^ k % blsModulus :=
  computePowers_spec 2 3 (by decide)

/-! ### C9: empty sidecar on the per-blob path -/

/-- C9: when slot and root match and both the expected-commitment list and
the sidecar's blob list are empty, `VerifyBlobsSidecar` returns success:
the per-blob path has no emptiness gate and the per-index loop passes
vacuously. -/
theorem VerifyBlobsSidecar_empty_ok (N : Nat)
    (cc : List (List Nat) → Option (List Nat)) (slot : Nat)
    (root : List Nat) (sc : PBSidecar)
    (h1 : slot = sc.beaconBlockSlot)
    (h2 : root = toBytes32 sc.beaconBlockRoot)
    (h3 : sc.blobs = []) :
    VerifyBlobsSidecar N cc slot root [] sc = Exec.ok () := by
  simp [VerifyBlobsSidecar, h1, h2, h3, verifyLoop]

theorem VerifyBlobsSidecar_empty_ok_witness :
    VerifyBlobsSidecar 4 (fun _ => none) 0 (toBytes32 []) []
      ⟨0, [], []⟩ = Exec.ok () :=
  VerifyBlobsSidecar_empty_ok 4 (fun _ => none) 0 (toBytes32 [])
    ⟨0, [], []⟩ rfl rfl rfl

/-! ### C10: the presence predicates never report true together with an
error -/

/-- C10: whenever `BlockContainsKZGs` or `BlockContainsSidecar` returns a
non-nil error, the boolean alongside it is false; equivalently, a `true`
result always comes with a nil error. -/
theorem blockPredicates_no_true_with_error (isPre : Nat → Bool)
    (b : BeaconBlock) (sb : SignedBeaconBlock) :
    ((BlockContainsKZGs isPre b).1 = true →
      (BlockContainsKZGs isPre b).2 = none) ∧
    ((BlockContainsSidecar isPre sb).1 = true →
      (BlockContainsSidecar isPre sb).2 = none) := by
  have hkzg : ∀ (bb : BeaconBlock), (BlockContainsKZGs isPre bb).1 = true →
      (BlockContainsKZGs isPre bb).2 = none := by
    intro bb h
    unfold BlockContainsKZGs at h ⊢
    by_cases hv : isPre bb.version
    · rw [if_pos hv] at h; simp at h
    · rw [if_neg hv] at h ⊢
      cases hk : bb.blobKzgs with
      | error e => rw [hk] at h; simp at h
      | ok ks => simp
  refine ⟨hkzg b, ?_⟩
  intro h
  unfold BlockContainsSidecar at h ⊢
  rcases hbk : BlockContainsKZGs isPre sb.block with ⟨bk, oe⟩
  rw [hbk] at h
  cases oe with
  | some e => simp at h
  | none =>
    cases bk with
    | false => simp at h
    | true =>
      simp only [Bool.not_true] at h ⊢
      cases hsc : sb.sideCar with
      | error e =>
        rw [hsc] at h
        by_cases he : e = GoErr.nilSidecar <;> simp [he] at h
      | ok s => simp

theorem blockPredicates_no_true_with_error_witness :
    (BlockContainsKZGs (fun _ => false) ⟨1, Except.ok [[1]]⟩).2 = none ∧
    (BlockContainsSidecar (fun _ => false)
      ⟨⟨1, Except.ok [[1]]⟩, Except.ok ⟨0, [], []⟩⟩).2 = none :=
  ⟨(blockPredicates_no_true_with_error (fun _ => false) ⟨1, Except.ok [[1]]⟩
      ⟨⟨1, Except.ok [[1]]⟩, Except.ok ⟨0, [], []⟩⟩).1 (by decide),
   (blockPredicates_no_true_with_error (fun _ => false) ⟨1, Except.ok [[1]]⟩
      ⟨⟨1, Except.ok [[1]]⟩, Except.ok ⟨0, [], []⟩⟩).2 (by decide)⟩

/-! ### C7: g1LinComb -/

theorem decompressAll_error_iff {G : Type} (fromC : List Nat → Except GoErr G) :
    ∀ points : List (List Nat),
      (∃ e, decompressAll fromC points = .error e) ↔
        ∃ p ∈ points, ∃ e, fromC p = .error e := by
  intro points
  induction points with
  | nil => simp [decompressAll]
  | cons p ps ih =>
    cases hfp : fromC p with
    | error e =>
      simp only [decompressAll, hfp]
      constructor
      · intro _; exact ⟨p, by simp, e, hfp⟩
      · intro _; exact ⟨e, rfl⟩
    | ok g =>
      cases hca : decompressAll fromC ps with
      | error e =>
        simp only [decompressAll, hfp, hca]
        constructor
        · intro _
          rcases ih.mp ⟨e, hca⟩ with ⟨q, hq, eq', he⟩
          exact ⟨q, List.mem_cons_of_mem p hq, eq', he⟩
        · intro _; exact ⟨e, rfl⟩
      | ok gs =>
        simp only [decompressAll, hfp, hca]
        constructor
        · rintro ⟨e, he⟩; cases he
        · rintro ⟨q, hq, e, he⟩
          rcases List.mem_cons.mp hq with rfl | hq'
          · rw [hfp] at he; cases he
          · rcases ih.mpr ⟨q, hq', e, he⟩ with ⟨e', he'⟩
            rw [he'] at hca; cases hca

/-- C7: `g1LinComb` with mismatched-length inputs fails with the
length-mismatch error; with matching lengths it propagates the
decompression error exactly when some point fails to decompress, otherwise
returns the compressed linear combination of the decompressed points; and
it never panics. -/
theorem g1LinComb_spec {G : Type} (fromC : List Nat → Except GoErr G)
    (linC : List G → List Nat → G) (toC : G → List Nat)
    (points : List (List Nat)) (scalars : List Nat) :
    (points.length ≠ scalars.length →
      g1LinComb fromC linC toC points scalars =
        .fail .pointsScalarsLengthMismatch) ∧
    (points.length = scalars.length →
      (∀ e, decompressAll fromC points = .error e →
        g1LinComb fromC linC toC points scalars = .fail e) ∧
      ((∃ e, decompressAll fromC points = .error e) ↔
        ∃ p ∈ points, ∃ e, fromC p = .error e) ∧
      (∀ g1s, decompressAll fromC points = .ok g1s →
        g1LinComb fromC linC toC points scalars =
          .ok (toC (linC g1s scalars)))) ∧
    g1LinComb fromC linC toC points scalars ≠ Exec.crash := by
  refine ⟨fun hne => by simp [g1LinComb, hne], fun heq => ?_, ?_⟩
  · refine ⟨fun e he => by simp [g1LinComb, heq, he],
      decompressAll_error_iff fromC points,
      fun g1s hg => by simp [g1LinComb, heq, hg]⟩
  · unfold g1LinComb
    by_cases h : points.length = scalars.length
    · simp only [h, ne_eq, not_true_eq_false, if_false]
      cases decompressAll fromC points <;> simp
    · simp [h]

theorem g1LinComb_spec_witness :
    g1LinComb (fun _ => (Except.ok () : Except GoErr Unit))
      (fun _ _ => ()) (fun _ => [0]) [[1]] [] =
        .fail .pointsScalarsLengthMismatch ∧
    g1LinComb (fun _ => (Except.ok () : Except GoErr Unit))
      (fun _ _ => ()) (fun _ => [0]) [[1], [2]] [5, 6] = .ok [0] :=
  ⟨(g1LinComb_spec (fun _ => (Except.ok () : Except GoErr Unit))
      (fun _ _ => ()) (fun _ => [0]) [[1]] []).1 (by decide),
   ((g1LinComb_spec (fun _ => (Except.ok () : Except GoErr Unit))
      (fun _ _ => ()) (fun _ => [0]) [[1], [2]] [5, 6]).2.1
        (by decide)).2.2 [(), ()] rfl⟩

/-! ### C1: polyLinComb -/

theorem natFromBytesLE_lt : ∀ l : List Nat, natFromBytesLE l < 256 ^ l.length := by
  intro l
  induction l with
  | nil => simp [natFromBytesLE]
  | cons b rest ih =>
    have hb : b % 256 < 256 := Nat.mod_lt _ (by norm_num)
    calc b % 256 + 256 * natFromBytesLE rest
        < 256 * (natFromBytesLE rest + 1) := by omega
      _ ≤ 256 * 256 ^ rest.length := by
          exact Nat.mul_le_mul_left _ (Nat.succ_le_of_lt ih)
      _ = 256 ^ (rest.length + 1) := by ring
      _ = 256 ^ (b :: rest).length := by simp

theorem natFromBytesLE_append (xs ys : List Nat) :
    natFromBytesLE (xs ++ ys) =
      natFromBytesLE xs + 256 ^ xs.length * natFromBytesLE ys := by
  induction xs with
  | nil => simp [natFromBytesLE]
  | cons b rest ih =>
    simp only [List.cons_append, natFromBytesLE, List.length_cons,
      List.append_eq]
    rw [ih]
    ring

theorem frFrom32_of_31_bytes (chunk : List Nat) (h : chunk.length = 31) :
    frFrom32 (toBytes32 chunk) = some (natFromBytesLE chunk) := by
  have htb : toBytes32 chunk = chunk ++ [0] := by
    rw [toBytes32, List.take_of_length_le (by omega), h]
    rfl
  have hval : natFromBytesLE (toBytes32 chunk) = natFromBytesLE chunk := by
    rw [htb, natFromBytesLE_append]
    simp [natFromBytesLE]
  have hlt : natFromBytesLE chunk < blsModulus := by
    have := natFromBytesLE_lt chunk
    rw [h] at this
    calc natFromBytesLE chunk < 256 ^ 31 := this
      _ < blsModulus := by norm_num [blsModulus]
  rw [frFrom32, hval]
  simp [hlt]

theorem blobLoop_crash (d : List Nat) (N : Nat) (hd : d.length = N * 32) :
    ∀ cnt j r, j + cnt = N + 1 → j ≤ N → r.length = N →
      blobLoop d cnt j r = Exec.crash := by
  intro cnt
  induction cnt with
  | zero => intro j r hcnt hj _; omega
  | succ c ih =>
    intro j r hcnt hj hr
    by_cases hjN : j = N
    · subst hjN
      have : ¬(j * 32 + 31 ≤ d.length) := by omega
      simp [blobLoop, this]
    · have hjlt : j < N := by omega
      have hread : j * 32 + 31 ≤ d.length := by
        rw [hd]; omega
      have hwrite : j < r.length := by omega
      have hchunk : (sliceGo d (j * 32) (j * 32 + 31)).length = 31 := by
        simp only [sliceGo, List.length_take, List.length_drop]
        omega
      rw [blobLoop, if_pos hread, if_pos hwrite,
        frFrom32_of_31_bytes _ hchunk]
      exact ih (j + 1) (r.set j (natFromBytesLE (sliceGo d (j * 32) (j * 32 + 31))))
        (by omega) (by omega) (by simp [hr])

/-- C1: the claim says `polyLinComb` decodes only chunks that lie within
each blob and never reads past the final valid chunk. On the code this is
false: the chunk loop is `for j := 0; j <= N; j++`, one iteration beyond
the final chunk, so for any non-empty blob list whose first blob has the
prescribed `N*32` bytes, iteration `j = N` slices `blob[N*32 : N*32+31]`
past the end of the blob and addresses `r[N]` past the end of `r` — a
runtime panic, before the linear combination is ever computed. -/
theorem polyLinComb_overruns_blob
    (lib : List (List Nat) → List Nat → Except GoErr (List Nat)) (N : Nat)
    (d : List Nat) (rest : List V1Blob) (scalars : List Nat)
    (h : d.length = N * 32) :
    polyLinComb lib N (⟨d⟩ :: rest) scalars = Exec.crash := by
  have hb : blobLoop d (N + 1) 0 (List.replicate N 0) = Exec.crash :=
    blobLoop_crash d N h (N + 1) 0 (List.replicate N 0) (by omega) (by omega)
      (by simp)
  simp [polyLinComb, polyLinCombOuter, hb]

theorem polyLinComb_overruns_blob_witness :
    polyLinComb (fun _ _ => Except.ok []) 1 [⟨List.replicate 32 0⟩] [1] =
      Exec.crash :=
  polyLinComb_overruns_blob (fun _ _ => Except.ok []) 1
    (List.replicate 32 0) [] [1] (by decide)

/-! ### C3: the empty-sidecar gate on the aggregate path -/

/-- C3: the claim says the emptiness gate runs before the first challenge
derivation, and that an empty-but-length-matched sidecar fails with the
empty-sidecar error. On the code both parts are false: the code calls
`hashToBlsField` on `{blobs, commitments}` first, the `numberOfBlobs == 0`
check sits after it, and the derivation panics on the nil `*bls.Fr`
(see `hashToBlsField`), so an empty sidecar makes `ValidateBlobsSidecar`
crash — `ErrEmptyBlobsInSidecar` is never returned. -/
theorem ValidateBlobsSidecar_empty_crashes {G : Type} (c : Collab G)
    (N : Nat) (roots : List Nat) (slot : Nat) (root : List Nat)
    (sc : AggSidecar) (bytes : List Nat)
    (h1 : slot = sc.beaconBlockSlot)
    (h2 : root = toBytes32 sc.beaconBlockRoot)
    (h3 : sc.blobs = [])
    (hm : c.marshalBC sc.blobs [] = Except.ok bytes) :
    ValidateBlobsSidecar c N roots slot root [] sc = Exec.crash := by
  rw [h3] at hm
  simp [ValidateBlobsSidecar, h1, h2, h3, hm, hashToBlsField, setFr]

/-- A trivial instantiation of the collaborator bundle, used by witnesses. -/
def collabEx : Collab Unit :=
  ⟨fun _ => List.replicate 32 0, fun _ _ => Except.ok [],
   fun _ _ => Except.ok [], fun _ => Except.ok (), fun _ _ => (),
   fun _ => [], fun _ _ => Except.ok [], fun _ _ _ => 0,
   fun _ _ _ _ => Except.ok true⟩

theorem ValidateBlobsSidecar_empty_crashes_witness :
    ValidateBlobsSidecar collabEx 4 [] 0 (toBytes32 []) []
      ⟨0, [], [], []⟩ = Exec.crash :=
  ValidateBlobsSidecar_empty_crashes collabEx 4 [] 0 (toBytes32 [])
    ⟨0, [], [], []⟩ [] rfl rfl rfl rfl

/-! ### C4: the per-blob decode and chunk high bytes -/

theorem toBytes32_of_length_32 (ch : List Nat) (h : ch.length = 32) :
    toBytes32 ch = ch := by
  rw [toBytes32, List.take_of_length_le (by omega), h]
  simp

theorem decodeLoop_spec :
    ∀ (chunks : List (List Nat)) (i : Nat) (blob : List (List Nat)),
      i + chunks.length ≤ blob.length →
      decodeLoop chunks i blob =
        some (blob.take i ++ chunks.map toBytes32 ++
          blob.drop (i + chunks.length)) := by
  intro chunks
  induction chunks with
  | nil =>
    intro i blob _
    simp [decodeLoop]
  | cons b rest ih =>
    intro i blob h
    have hi : i < blob.length := by
      simp only [List.length_cons] at h
      omega
    rw [decodeLoop, if_pos hi,
      ih (i + 1) (blob.set i (toBytes32 b)) (by simp at h ⊢; omega)]
    have htake : (blob.set i (toBytes32 b)).take (i + 1) =
        blob.take i ++ [toBytes32 b] := by
      rw [List.set_eq_take_cons_drop _ hi, List.take_append_eq_append_take,
        List.take_of_length_le (by rw [List.length_take]; omega)]
      have h1 : i + 1 - (blob.take i).length = 1 := by
        rw [List.length_take]
        omega
      rw [h1]
      rfl
    have hdrop : (blob.set i (toBytes32 b)).drop (i + 1 + rest.length) =
        blob.drop (i + 1 + rest.length) := by
      rw [List.drop_set, if_pos (by omega)]
    rw [htake, hdrop]
    simp only [List.map_cons, List.length_cons]
    have hidx : i + (rest.length + 1) = i + 1 + rest.length := by omega
    rw [hidx]
    simp [List.append_assoc]

/-- C4 counterexample: the claim says the decoded field elements are
independent of each 32-byte chunk's high byte. They are not: two chunks
differing only in byte 31 decode to different geth field elements, because
`copy(f[:], b)` copies all 32 bytes. -/
theorem decodeGethBlob_high_byte_matters :
    decodeGethBlob 1 [List.replicate 31 0 ++ [1]] ≠
      decodeGethBlob 1 [List.replicate 32 0] := by decide

/-- C4 amended: in `VerifyBlobsSidecar`'s decode step, all 32 bytes of each
chunk are copied into the corresponding field element unchanged (with
missing trailing chunks left as 32 zero bytes); the low-31-bytes
convention belongs to the aggregate path's `polyLinComb`, not to the
per-blob decode. -/
theorem decodeGethBlob_copies_all_bytes (N : Nat) (chunks : List (List Nat))
    (hlen : chunks.length ≤ N) (hch : ∀ ch ∈ chunks, ch.length = 32) :
    decodeGethBlob N chunks =
      some (chunks ++
        List.replicate (N - chunks.length) (List.replicate 32 0)) := by
  have hmap : chunks.map toBytes32 = chunks := by
    have := List.map_congr_left fun ch hm => toBytes32_of_length_32 ch (hch ch hm)
    rw [this, List.map_id']
  rw [decodeGethBlob, decodeLoop_spec chunks 0 _ (by simp; omega), hmap]
  simp [List.drop_replicate]

theorem decodeGethBlob_copies_all_bytes_witness :
    decodeGethBlob 2 [List.replicate 31 0 ++ [5]] =
      some ([List.replicate 31 0 ++ [5]] ++
        List.replicate 1 (List.replicate 32 0)) :=
  decodeGethBlob_copies_all_bytes 2 [List.replicate 31 0 ++ [5]]
    (by decide) (by decide)

/-! ### C5: bitReversalPermutation -/

theorem getD_eq_getElem (l : List Nat) (k : Nat) (h : k < l.length) :
    l.getD k 0 = l[k] := by
  rw [List.getD_eq_getElem?_getD, List.getElem?_eq_getElem h]
  rfl

theorem getD_set_self (l : List Nat) (i a : Nat) (h : i < l.length) :
    (l.set i a).getD i 0 = a := by
  rw [List.getD_eq_getElem?_getD, List.getElem?_set_self h]
  rfl

theorem getD_set_ne (l : List Nat) (i k a : Nat) (h : i ≠ k) :
    (l.set i a).getD k 0 = l.getD k 0 := by
  rw [List.getD_eq_getElem?_getD, List.getElem?_set_ne h,
    List.getD_eq_getElem?_getD]

theorem natBitRev_zero : ∀ w, natBitRev w 0 = 0 := by
  intro w
  induction w with
  | zero => rfl
  | succ v ih => simp [natBitRev, ih]

theorem natBitRev_lt : ∀ w i, natBitRev w i < 2 ^ w := by
  intro w
  induction w with
  | zero => intro i; simp [natBitRev]
  | succ v ih =>
    intro i
    have h1 : natBitRev v (i / 2) < 2 ^ v := ih (i / 2)
    have h2 : i % 2 ≤ 1 := by omega
    have h3 : i % 2 * 2 ^ v ≤ 2 ^ v := by
      calc i % 2 * 2 ^ v ≤ 1 * 2 ^ v := Nat.mul_le_mul_right _ h2
        _ = 2 ^ v := one_mul _
    calc natBitRev (v + 1) i = i % 2 * 2 ^ v + natBitRev v (i / 2) := rfl
      _ < 2 ^ v + 2 ^ v := by omega
      _ = 2 ^ (v + 1) := by ring

theorem natBitRev_high : ∀ w b a, a < 2 ^ w → b < 2 →
    natBitRev (w + 1) (a + 2 ^ w * b) = b + 2 * natBitRev w a := by
  intro w
  induction w with
  | zero =>
    intro b a ha hb
    interval_cases a
    interval_cases b <;> rfl
  | succ v ih =>
    intro b a ha hb
    have hmod : (a + 2 ^ (v + 1) * b) % 2 = a % 2 := by
      have : 2 ^ (v + 1) * b = 2 * (2 ^ v * b) := by ring
      rw [this]
      omega
    have hdiv : (a + 2 ^ (v + 1) * b) / 2 = a / 2 + 2 ^ v * b := by
      have h2 : 2 ^ (v + 1) * b = 2 ^ v * b * 2 := by ring
      rw [h2, Nat.add_mul_div_right _ _ (by norm_num)]
    have hahalf : a / 2 < 2 ^ v := by
      have : a < 2 ^ v * 2 := by
        calc a < 2 ^ (v + 1) := ha
          _ = 2 ^ v * 2 := by ring
      omega
    calc natBitRev (v + 1 + 1) (a + 2 ^ (v + 1) * b)
        = (a + 2 ^ (v + 1) * b) % 2 * 2 ^ (v + 1) +
            natBitRev (v + 1) ((a + 2 ^ (v + 1) * b) / 2) := rfl
      _ = a % 2 * 2 ^ (v + 1) + natBitRev (v + 1) (a / 2 + 2 ^ v * b) := by
          rw [hmod, hdiv]
      _ = a % 2 * 2 ^ (v + 1) + (b + 2 * natBitRev v (a / 2)) := by
          rw [ih b (a / 2) hahalf hb]
      _ = b + 2 * (a % 2 * 2 ^ v + natBitRev v (a / 2)) := by ring
      _ = b + 2 * natBitRev (v + 1) a := rfl

theorem natBitRev_involution : ∀ w i, i < 2 ^ w →
    natBitRev w (natBitRev w i) = i := by
  intro w
  induction w with
  | zero => intro i hi; interval_cases i; rfl
  | succ v ih =>
    intro i hi
    have hr : natBitRev v (i / 2) < 2 ^ v := natBitRev_lt v (i / 2)
    have hb : i % 2 < 2 := by omega
    have hhalf : i / 2 < 2 ^ v := by
      have : i < 2 ^ v * 2 := by
        calc i < 2 ^ (v + 1) := hi
          _ = 2 ^ v * 2 := by ring
      omega
    calc natBitRev (v + 1) (natBitRev (v + 1) i)
        = natBitRev (v + 1) (natBitRev v (i / 2) + 2 ^ v * (i % 2)) := by
          simp only [natBitRev]
          ring_nf
      _ = i % 2 + 2 * natBitRev v (natBitRev v (i / 2)) :=
          natBitRev_high v (i % 2) (natBitRev v (i / 2)) hr hb
      _ = i % 2 + 2 * (i / 2) := by rw [ih (i / 2) hhalf]
      _ = i := by omega

theorem natBitRev_widen : ∀ w u i, i < 2 ^ w →
    natBitRev (w + u) i = natBitRev w i * 2 ^ u := by
  intro w
  induction w with
  | zero =>
    intro u i hi
    have : i = 0 := by
      have := hi
      simp at this
      omega
    subst this
    simp [natBitRev_zero, natBitRev]
  | succ v ih =>
    intro u i hi
    have hhalf : i / 2 < 2 ^ v := by
      have : i < 2 ^ v * 2 := by
        calc i < 2 ^ (v + 1) := hi
          _ = 2 ^ v * 2 := by ring
      omega
    have hstep : v + 1 + u = (v + u) + 1 := by omega
    calc natBitRev (v + 1 + u) i
        = natBitRev ((v + u) + 1) i := by rw [hstep]
      _ = i % 2 * 2 ^ (v + u) + natBitRev (v + u) (i / 2) := rfl
      _ = i % 2 * 2 ^ (v + u) + natBitRev v (i / 2) * 2 ^ u := by
          rw [ih u (i / 2) hhalf]
      _ = (i % 2 * 2 ^ v + natBitRev v (i / 2)) * 2 ^ u := by
          rw [pow_add]
          ring
      _ = natBitRev (v + 1) i * 2 ^ u := rfl

theorem len64Aux_zero : ∀ fuel, len64Aux fuel 0 = 0 := by
  intro fuel
  cases fuel <;> simp [len64Aux]

theorem len64Aux_two_pow : ∀ fuel w, w < fuel →
    len64Aux fuel (2 ^ w) = w + 1 := by
  intro fuel
  induction fuel with
  | zero => intro w h; omega
  | succ f ih =>
    intro w h
    cases w with
    | zero => simp [len64Aux, len64Aux_zero]
    | succ v =>
      have hdiv : 2 ^ (v + 1) / 2 = 2 ^ v := by
        rw [pow_succ, Nat.mul_div_cancel _ (by norm_num)]
      rw [len64Aux, if_neg (by positivity), hdiv, ih v (by omega)]

theorem len64_two_pow (w : Nat) (h : w ≤ 63) : len64 (2 ^ w) = w + 1 :=
  len64Aux_two_pow 64 w (by omega)

theorem brpIndex_eq (w i : Nat) (hw : w ≤ 63) (hi : i < 2 ^ w) :
    brpIndex (2 ^ w) i = natBitRev w i := by
  have hmod : i % 2 ^ 64 = i := by
    apply Nat.mod_eq_of_lt
    calc i < 2 ^ w := hi
      _ ≤ 2 ^ 64 := Nat.pow_le_pow_right (by norm_num) (by omega)
  have hsplit : w + (64 - w) = 64 := by omega
  have hwiden : natBitRev 64 i = natBitRev w i * 2 ^ (64 - w) := by
    have h0 := natBitRev_widen w (64 - w) i hi
    rw [hsplit] at h0
    exact h0
  rw [brpIndex, reverse64, hmod, len64_two_pow w hw, hwiden,
    Nat.shiftRight_eq_div_pow]
  have hshift : 65 - (w + 1) = 64 - w := by omega
  rw [hshift, Nat.mul_div_cancel _ (Nat.pos_pow_of_pos _ (by norm_num))]

theorem isPowerOfTwo_two_pow (w : Nat) : isPowerOfTwo (2 ^ w) = true := by
  rw [isPowerOfTwo]
  have h1 : 0 < 2 ^ w := Nat.pos_pow_of_pos w (by norm_num)
  have h2 : 2 ^ w &&& 2 ^ w - 1 = 0 := by
    rw [Nat.and_pow_two_sub_one_eq_mod, Nat.mod_self]
  simp [h1, h2]

theorem brpGo_spec (w : Nat) (l : List Nat) (hw : w ≤ 63)
    (hl : l.length = 2 ^ w) :
    ∀ rem i out, out.length = 2 ^ w → i + rem = 2 ^ w →
      ∃ res, brpGo (2 ^ w) l rem i out = Exec.ok res ∧
        res.length = 2 ^ w ∧
        ∀ k, k < 2 ^ w → res.getD k 0 =
          if i ≤ k then l.getD (natBitRev w k) 0 else out.getD k 0 := by
  intro rem
  induction rem with
  | zero =>
    intro i out hout hi
    refine ⟨out, rfl, hout, ?_⟩
    intro k hk
    rw [if_neg (by omega)]
  | succ rm ih =>
    intro i out hout hi
    have hilt : i < 2 ^ w := by omega
    have hj : natBitRev w i < l.length := by
      rw [hl]; exact natBitRev_lt w i
    have hread : l.get? (brpIndex (2 ^ w) i) = some (l.getD (natBitRev w i) 0) := by
      rw [brpIndex_eq w i hw hilt, List.get?_eq_getElem?,
        List.getElem?_eq_getElem hj, getD_eq_getElem l _ hj]
    have hwrite : i < out.length := by omega
    rcases ih (i + 1) (out.set i (l.getD (natBitRev w i) 0))
        (by simp [hout]) (by omega) with ⟨res, hres, hlen, hchar⟩
    refine ⟨res, ?_, hlen, ?_⟩
    · rw [brpGo, hread]
      dsimp only
      rw [if_pos hwrite, hres]
    · intro k hk
      rcases Nat.lt_trichotomy k i with hki | hki | hki
      · rw [hchar k hk, if_neg (by omega), if_neg (by omega),
          getD_set_ne out i k _ (by omega)]
      · subst hki
        rw [hchar k hk, if_neg (by omega), if_pos (by omega),
          getD_set_self out k _ (by omega)]
      · rw [hchar k hk, if_pos (by omega), if_pos (by omega)]

/-- The permutation the design document describes for
`bitReversalPermutation`: `output[i] = input[reverse_bits(i)]` over the
table length, with the bit-width covering the table. Stated for comparison
with the permutation loop compiled from the source. -/
def brpSpec (w : Nat) (l : List Nat) : List Nat :=
  (List.range (2 ^ w)).map fun i => l.getD (natBitRev w i) 0

theorem brpSpec_length (w : Nat) (l : List Nat) :
    (brpSpec w l).length = 2 ^ w := by
  simp [brpSpec]

theorem brpSpec_getD (w : Nat) (l : List Nat) (k : Nat) (hk : k < 2 ^ w) :
    (brpSpec w l).getD k 0 = l.getD (natBitRev w k) 0 := by
  rw [brpSpec, List.getD_eq_getElem?_getD, List.getElem?_map,
    List.getElem?_range hk]
  rfl

theorem bitReversalPermutation_ok (w : Nat) (l : List Nat) (hw : w ≤ 63)
    (hl : l.length = 2 ^ w) :
    bitReversalPermutation (2 ^ w) l = Exec.ok (brpSpec w l) := by
  rcases brpGo_spec w l hw hl (2 ^ w) 0 (List.replicate (2 ^ w) 0)
      (by simp) (by omega) with ⟨res, hres, hlen, hchar⟩
  rw [bitReversalPermutation, if_pos (isPowerOfTwo_two_pow w), hl, hres]
  congr 1
  apply List.ext_getElem (by rw [hlen, brpSpec_length])
  intro n h1 h2
  have hn : n < 2 ^ w := by rw [hlen] at h1; exact h1
  rw [← getD_eq_getElem res n h1, ← getD_eq_getElem _ n h2,
    hchar n hn, if_pos (by omega), brpSpec_getD w l n hn]

/-- C5 counterexample: the claim quantifies over every power-of-two-length
sequence, but the code sizes both the output and the shift by the global
constant, not by `len(l)`. With the constant at 4, the power-of-two-length
input `[1, 2]` makes the loop read `l[2]` out of range — a panic, not the
identity-after-two-applications the claim promises. -/
theorem bitReversalPermutation_wrong_length_crashes :
    bitReversalPermutation 4 [1, 2] = Exec.crash ∧
    bitReversalPermutation 4 [1, 2] ≠ Exec.ok [1, 2] := by decide

/-- C5 amended: for sequences whose length is exactly the configured
`FieldElementsPerBlob = 2^w` (a power of two fitting in a uint64), a single
application returns the sequence with `output[i] = input[reverse_bits(i)]`
over `w` bits, and applying the permutation twice returns the original
sequence. For power-of-two lengths different from the constant this fails
(see the counterexample). -/
theorem bitReversalPermutation_at_N (w : Nat) (l : List Nat) (hw : w ≤ 63)
    (hl : l.length = 2 ^ w) :
    bitReversalPermutation (2 ^ w) l = Exec.ok (brpSpec w l) ∧
    bitReversalPermutation (2 ^ w) (brpSpec w l) = Exec.ok l := by
  refine ⟨bitReversalPermutation_ok w l hw hl, ?_⟩
  rw [bitReversalPermutation_ok w (brpSpec w l) hw (brpSpec_length w l)]
  congr 1
  apply List.ext_getElem (by rw [brpSpec_length, hl])
  intro n h1 h2
  have hn : n < 2 ^ w := by rw [brpSpec_length] at h1; exact h1
  have hrev : natBitRev w n < 2 ^ w := natBitRev_lt w n
  rw [← getD_eq_getElem _ n h1, ← getD_eq_getElem l n h2,
    brpSpec_getD w _ n hn, brpSpec_getD w l _ hrev,
    natBitRev_involution w n hn]

theorem bitReversalPermutation_at_N_witness :
    bitReversalPermutation (2 ^ 2) [1, 2, 3, 4] =
      Exec.ok (brpSpec 2 [1, 2, 3, 4]) ∧
    bitReversalPermutation (2 ^ 2) (brpSpec 2 [1, 2, 3, 4]) =
      Exec.ok [1, 2, 3, 4] :=
  bitReversalPermutation_at_N 2 [1, 2, 3, 4] (by decide) (by decide)

/-! ### C8: per-blob verification succeeds exactly when all commitments
match -/

theorem decodeGethBlob_isSome (N : Nat) (chunks : List (List Nat))
    (h : chunks.length ≤ N) : ∃ db, decodeGethBlob N chunks = some db :=
  ⟨_, by rw [decodeGethBlob, decodeLoop_spec chunks 0 _ (by simp; omega)]⟩

theorem verifyLoop_ok_iff (N : Nat)
    (cc : List (List Nat) → Option (List Nat)) :
    ∀ (ks : List (List Nat)) (bs : List SidecarBlob),
      ks.length = bs.length → (∀ b ∈ bs, b.chunks.length ≤ N) →
      (verifyLoop N cc ks bs = Exec.ok () ↔
        ∀ i, i < ks.length →
          recomputeCommitment N cc (bs.getD i ⟨[]⟩) = some (ks.getD i [])) := by
  intro ks
  induction ks with
  | nil =>
    intro bs _ _
    simp [verifyLoop]
  | cons k ks ih =>
    intro bs hlen hb
    cases bs with
    | nil => simp at hlen
    | cons b bs' =>
      have hbchunks : b.chunks.length ≤ N := hb b (by simp)
      rcases decodeGethBlob_isSome N b.chunks hbchunks with ⟨db, hdb⟩
      have hrec : recomputeCommitment N cc b = cc db := by
        rw [recomputeCommitment, hdb]
        rfl
      have hloop : verifyLoop N cc (k :: ks) (b :: bs') =
          match cc db with
          | none => Exec.fail .couldNotComputeCommitment
          | some c =>
            if c ≠ k then Exec.fail .missmatchKzgs else verifyLoop N cc ks bs' := by
        rw [verifyLoop, hdb]
      have hrest := ih bs' (by simp at hlen; omega) fun x hx => hb x (by simp [hx])
      cases hcc : cc db with
      | none =>
        rw [hloop, hcc]
        dsimp only
        constructor
        · intro h; cases h
        · intro hall
          have h0 := hall 0 (by simp)
          rw [List.getD_cons_zero, List.getD_cons_zero, hrec, hcc] at h0
          cases h0
      | some c =>
        by_cases hck : c = k
        · subst hck
          rw [hloop, hcc]
          dsimp only
          rw [if_neg (by simp), hrest]
          constructor
          · intro hall i hi
            cases i with
            | zero => simp [List.getD_cons_zero, hrec, hcc]
            | succ i' =>
              rw [List.getD_cons_succ, List.getD_cons_succ]
              exact hall i' (by simp at hi; omega)
          · intro hall i hi
            have := hall (i + 1) (by simp; omega)
            rw [List.getD_cons_succ, List.getD_cons_succ] at this
            exact this
        · rw [hloop, hcc]
          dsimp only
          rw [if_pos hck]
          constructor
          · intro h; cases h
          · intro hall
            have h0 := hall 0 (by simp)
            rw [List.getD_cons_zero, List.getD_cons_zero, hrec, hcc] at h0
            cases h0
            exact absurd rfl hck

theorem verifyLoop_first_comp_failed (N : Nat)
    (cc : List (List Nat) → Option (List Nat)) :
    ∀ (ks : List (List Nat)) (bs : List SidecarBlob) (j : Nat),
      ks.length = bs.length → (∀ b ∈ bs, b.chunks.length ≤ N) →
      j < ks.length →
      (∀ i, i < j →
        recomputeCommitment N cc (bs.getD i ⟨[]⟩) = some (ks.getD i [])) →
      recomputeCommitment N cc (bs.getD j ⟨[]⟩) = none →
      verifyLoop N cc ks bs = Exec.fail .couldNotComputeCommitment := by
  intro ks
  induction ks with
  | nil => intro bs j _ _ hj _ _; simp at hj
  | cons k ks ih =>
    intro bs j hlen hb hj hprev hnone
    cases bs with
    | nil => simp at hlen
    | cons b bs' =>
      have hbchunks : b.chunks.length ≤ N := hb b (by simp)
      rcases decodeGethBlob_isSome N b.chunks hbchunks with ⟨db, hdb⟩
      have hrec : recomputeCommitment N cc b = cc db := by
        rw [recomputeCommitment, hdb]
        rfl
      rw [verifyLoop, hdb]
      dsimp only
      cases j with
      | zero =>
        rw [List.getD_cons_zero, hrec] at hnone
        rw [hnone]
      | succ j' =>
        have h0 := hprev 0 (by omega)
        rw [List.getD_cons_zero, List.getD_cons_zero, hrec] at h0
        rw [h0]
        dsimp only
        rw [if_neg (by simp)]
        rw [List.getD_cons_succ] at hnone
        refine ih bs' j' (by simp at hlen; omega)
          (fun x hx => hb x (by simp [hx])) (by simp at hj; omega) ?_ hnone
        intro i hi
        have := hprev (i + 1) (by omega)
        rw [List.getD_cons_succ, List.getD_cons_succ] at this
        exact this

theorem verifyLoop_first_mismatch (N : Nat)
    (cc : List (List Nat) → Option (List Nat)) :
    ∀ (ks : List (List Nat)) (bs : List SidecarBlob) (j : Nat) (c : List Nat),
      ks.length = bs.length → (∀ b ∈ bs, b.chunks.length ≤ N) →
      j < ks.length →
      (∀ i, i < j →
        recomputeCommitment N cc (bs.getD i ⟨[]⟩) = some (ks.getD i [])) →
      recomputeCommitment N cc (bs.getD j ⟨[]⟩) = some c →
      c ≠ ks.getD j [] →
      verifyLoop N cc ks bs = Exec.fail .missmatchKzgs := by
  intro ks
  induction ks with
  | nil => intro bs j c _ _ hj _ _ _; simp at hj
  | cons k ks ih =>
    intro bs j c hlen hb hj hprev hsome hne
    cases bs with
    | nil => simp at hlen
    | cons b bs' =>
      have hbchunks : b.chunks.length ≤ N := hb b (by simp)
      rcases decodeGethBlob_isSome N b.chunks hbchunks with ⟨db, hdb⟩
      have hrec : recomputeCommitment N cc b = cc db := by
        rw [recomputeCommitment, hdb]
        rfl
      rw [verifyLoop, hdb]
      dsimp only
      cases j with
      | zero =>
        rw [List.getD_cons_zero, hrec] at hsome
        rw [List.getD_cons_zero] at hne
        rw [hsome]
        dsimp only
        rw [if_pos hne]
      | succ j' =>
        have h0 := hprev 0 (by omega)
        rw [List.getD_cons_zero, List.getD_cons_zero, hrec] at h0
        rw [h0]
        dsimp only
        rw [if_neg (by simp)]
        rw [List.getD_cons_succ] at hsome
        rw [List.getD_cons_succ] at hne
        refine ih bs' j' c (by simp at hlen; omega)
          (fun x hx => hb x (by simp [hx])) (by simp at hj; omega) ?_ hsome hne
        intro i hi
        have := hprev (i + 1) (by omega)
        rw [List.getD_cons_succ, List.getD_cons_succ] at this
        exact this

/-- C8: when the slot, root and length gates pass (and every blob fits the
geth array so decoding does not panic), `VerifyBlobsSidecar` returns
success iff every blob's recomputed commitment equals the expected
commitment at the same index; if all commitments before index `j` match,
then a failed commitment computation at `j` yields the
computation-failed error, and a differing recomputed commitment at `j`
yields the mismatch error — so the first failing index decides the result
and there is no partial success. -/
theorem VerifyBlobsSidecar_ok_iff (N : Nat)
    (cc : List (List Nat) → Option (List Nat)) (slot : Nat)
    (root : List Nat) (exp : List (List Nat)) (sc : PBSidecar)
    (h1 : slot = sc.beaconBlockSlot)
    (h2 : root = toBytes32 sc.beaconBlockRoot)
    (h3 : exp.length = sc.blobs.length)
    (h4 : ∀ b ∈ sc.blobs, b.chunks.length ≤ N) :
    (VerifyBlobsSidecar N cc slot root exp sc = Exec.ok () ↔
      ∀ i, i < exp.length →
        recomputeCommitment N cc (sc.blobs.getD i ⟨[]⟩) =
          some (exp.getD i [])) ∧
    (∀ j, j < exp.length →
      (∀ i, i < j →
        recomputeCommitment N cc (sc.blobs.getD i ⟨[]⟩) =
          some (exp.getD i [])) →
      (recomputeCommitment N cc (sc.blobs.getD j ⟨[]⟩) = none →
        VerifyBlobsSidecar N cc slot root exp sc =
          Exec.fail .couldNotComputeCommitment) ∧
      (∀ c, recomputeCommitment N cc (sc.blobs.getD j ⟨[]⟩) = some c →
        c ≠ exp.getD j [] →
        VerifyBlobsSidecar N cc slot root exp sc =
          Exec.fail .missmatchKzgs)) := by
  have hguard : VerifyBlobsSidecar N cc slot root exp sc =
      verifyLoop N cc exp sc.blobs := by
    simp [VerifyBlobsSidecar, h1, h2, h3]
  rw [hguard]
  refine ⟨verifyLoop_ok_iff N cc exp sc.blobs h3 h4, ?_⟩
  intro j hj hprev
  exact ⟨verifyLoop_first_comp_failed N cc exp sc.blobs j h3 h4 hj hprev,
    fun c hc hne =>
      verifyLoop_first_mismatch N cc exp sc.blobs j c h3 h4 hj hprev hc hne⟩

theorem VerifyBlobsSidecar_ok_iff_witness :
    VerifyBlobsSidecar 1 (fun _ => some [7]) 0 (toBytes32 []) [[7]]
      ⟨0, [], [⟨[]⟩]⟩ = Exec.ok () :=
  (VerifyBlobsSidecar_ok_iff 1 (fun _ => some [7]) 0 (toBytes32 []) [[7]]
    ⟨0, [], [⟨[]⟩]⟩ rfl rfl rfl (by decide)).1.mpr (by decide)

end Prysm
